import Mathlib

/-!
Shallow embedding of the fixed-capacity hash table with linear probing and
tombstone deletion from `src/SourceJZ.cpp` (`HashTableLinearProbing<K,V>`),
together with proofs about its `insert`, `retrieve` and `remove` operations.

The C++ `Entry` struct carries `occupied` and `active` flags; a cell with
`occupied = false` (the default-constructed cell, which also has
`active = false`) has never been written and its `key`/`value` fields are
never read by the code, so it is modelled as the single constructor
`Entry.empty`.  A written cell is `Entry.stored key value active`.  The C++
member `size` is an `int` that `remove` decrements, so it is modelled as
`Int`.  The probe loops detect a full wrap-around (`index == start_index`
after advancing) exactly after examining `capacity` consecutive slots, so
they are modelled with a fuel argument that starts at `capacity`.
-/

set_option linter.unusedSectionVars false

namespace HashTableLP

/-- One cell of the C++ `table` vector: `empty` models a default-constructed
`Entry` (`occupied = false`), `stored k v a` models a written cell
(`occupied = true`) whose `active` flag is `a` (a tombstone when `a = false`). -/
inductive Entry (K V : Type) where
  | empty : Entry K V
  | stored (key : K) (value : V) (active : Bool) : Entry K V
deriving DecidableEq

/-- The table state: the slot vector and the C++ `size` counter (an `int`,
hence `Int`).  The capacity of the table is `slots.length`. -/
structure HashTable (K V : Type) where
  slots : List (Entry K V)
  size : Int
deriving DecidableEq

variable {K V : Type} [DecidableEq K]

/-- The C++ `occupied` flag of a cell. -/
def Entry.occupied : Entry K V → Bool
  | .empty => false
  | .stored _ _ _ => true

/-- The C++ `active` flag of a cell (false for a never-written cell, as in the
default constructor, and for a tombstone). -/
def Entry.active : Entry K V → Bool
  | .empty => false
  | .stored _ _ a => a

/-- The key held by a cell, when the cell has been written. -/
def Entry.keyOf : Entry K V → Option K
  | .empty => none
  | .stored k _ _ => some k

/-- The value held by a cell, when the cell has been written. -/
def Entry.valueOf : Entry K V → Option V
  | .empty => none
  | .stored _ v _ => some v

/-- The key of a cell that is occupied and active (a live cell). -/
def Entry.activeKey : Entry K V → Option K
  | .stored k _ true => some k
  | _ => none

/-- Clearing the `active` flag (C++ `table[index].active = false`). -/
def Entry.deactivate : Entry K V → Entry K V
  | .empty => .empty
  | .stored k v _ => .stored k v false

/-- Setting the `active` flag (C++ `table[index].active = true`). -/
def Entry.reactivate : Entry K V → Entry K V
  | .empty => .empty
  | .stored k v _ => .stored k v true

/-- Reading slot `i` of the vector (C++ `table[index]`; the code only ever
reads in-range indices, so the default is irrelevant). -/
def slotAt (slots : List (Entry K V)) (i : Nat) : Entry K V :=
  slots.getD i Entry.empty

/-- The constructor `HashTableLinearProbing(capacity)`: `capacity`
default-constructed entries and `size = 0`. -/
def mkTable (K V : Type) (cap : Nat) : HashTable K V :=
  ⟨List.replicate cap Entry.empty, 0⟩

/-- `hashFunction`: `hash(key) % capacity`.  The hash `h` itself
(`std::hash<K>`) is a parameter of the model. -/
def hashFunction (h : K → Nat) (cap : Nat) (k : K) : Nat := h k % cap

/-- The probe loop of `insert`: starting at `idx`, advance while the current
slot is occupied and holds a different key.  `fuel` is the number of slots
that may still be examined; at the top call it is `capacity`, which is exactly
when the C++ wrap-around check (`index == start_index` after advancing) fires.
`none` models the thrown `overflow_error` ("Hash table is full"). -/
def probeInsert (slots : List (Entry K V)) (k : K) : Nat → Nat → Option Nat
  | _, 0 => none
  | idx, fuel + 1 =>
    match slots[idx]? with
    | some (.stored k' _ _) =>
      if k' = k then some idx
      else probeInsert slots k ((idx + 1) % slots.length) fuel
    | some .empty => some idx
    | none => none

/-- The probe loop shared by `retrieve` and `remove`: scan while the current
slot is occupied, returning the index of the first occupied, active cell that
holds `k`; `none` when an unoccupied cell is reached or the scan wraps fully
around (fuel exhausted). -/
def probeFind (slots : List (Entry K V)) (k : K) : Nat → Nat → Option Nat
  | _, 0 => none
  | idx, fuel + 1 =>
    match slots[idx]? with
    | some (.stored k' _ a) =>
      if k' = k ∧ a = true then some idx
      else probeFind slots k ((idx + 1) % slots.length) fuel
    | _ => none

/-- `insert(key, value)`: probe from the home slot, overwrite the found slot
with `Entry(key, value)` (occupied and active), then perform the reactivation
check of the C++ code — which reads the `active` flag of the slot it has just
overwritten.  `none` models the thrown `overflow_error`. -/
def insert (h : K → Nat) (t : HashTable K V) (k : K) (v : V) :
    Option (HashTable K V) :=
  match probeInsert t.slots k (hashFunction h t.slots.length k) t.slots.length with
  | none => none
  | some idx =>
    let slots1 := t.slots.set idx (Entry.stored k v true)
    if (slotAt slots1 idx).active = false then
      some ⟨slots1.set idx (slotAt slots1 idx).reactivate, t.size + 1⟩
    else
      some ⟨slots1, t.size⟩

/-- `retrieve(key)`: the value at the first occupied, active matching slot;
`none` models the thrown `runtime_error` ("Key not found"). -/
def retrieve (h : K → Nat) (t : HashTable K V) (k : K) : Option V :=
  match probeFind t.slots k (hashFunction h t.slots.length k) t.slots.length with
  | some idx => (slotAt t.slots idx).valueOf
  | none => none

/-- `remove(key)`: the returned boolean together with the table after the
call (`active` flag of the found slot cleared and `size` decremented on
success; everything unchanged on failure). -/
def remove (h : K → Nat) (t : HashTable K V) (k : K) :
    Bool × HashTable K V :=
  match probeFind t.slots k (hashFunction h t.slots.length k) t.slots.length with
  | some idx =>
    (true, ⟨t.slots.set idx (slotAt t.slots idx).deactivate, t.size - 1⟩)
  | none => (false, t)

/-- One call through the public interface. -/
inductive Op (K V : Type) where
  | ins (k : K) (v : V)
  | ret (k : K)
  | rem (k : K)

/-- Effect of one call on the table.  A failing insert throws
`overflow_error`, which the CLI driver catches, leaving the table unchanged;
`retrieve` never mutates the table. -/
def applyOp (h : K → Nat) (t : HashTable K V) : Op K V → HashTable K V
  | .ins k v => (insert h t k v).getD t
  | .ret _ => t
  | .rem k => (remove h t k).2

/-- The table after a sequence of calls on a freshly constructed table of the
given capacity. -/
def run (h : K → Nat) (cap : Nat) (ops : List (Op K V)) : HashTable K V :=
  ops.foldl (applyOp h) (mkTable K V cap)

/-- Number of live (occupied and active) slots. -/
def activeCount (t : HashTable K V) : Nat := t.slots.countP Entry.active

/-- Table states reachable through the public interface starting from a
freshly constructed table.  A failing insert and a `retrieve` leave the state
unchanged, so they need no constructor of their own. -/
inductive Reachable (h : K → Nat) : HashTable K V → Prop where
  | init (cap : Nat) : Reachable h (mkTable K V cap)
  | insertOk {t t' : HashTable K V} {k : K} {v : V} :
      Reachable h t → insert h t k v = some t' → Reachable h t'
  | removeStep {t : HashTable K V} (k : K) :
      Reachable h t → Reachable h (remove h t k).2

/-- Offset of slot `i` on the probe path starting at `home`: the `d < cap`
with `(home + d) % cap = i` (for `home < cap`, `i < cap`). -/
def distTo (cap home i : Nat) : Nat := (i + (cap - home)) % cap

/-- The open-addressing invariant maintained by the code: every written key
occupies exactly one slot, and every slot on the probe path from that key's
home slot to its slot is occupied. -/
def Inv (h : K → Nat) (t : HashTable K V) : Prop :=
  ∀ i, i < t.slots.length → ∀ k', (slotAt t.slots i).keyOf = some k' →
    (∀ j, j < t.slots.length → (slotAt t.slots j).keyOf = some k' → j = i) ∧
    (∀ e, e < distTo t.slots.length (hashFunction h t.slots.length k') i →
      (slotAt t.slots
        ((hashFunction h t.slots.length k' + e) % t.slots.length)).keyOf ≠ none)

/-! ### Basic lemmas about slots and probe arithmetic -/

theorem lt_of_getElem?_some {slots : List (Entry K V)} {i : Nat} {e : Entry K V}
    (hs : slots[i]? = some e) : i < slots.length := by
  rcases List.getElem?_eq_some.mp hs with ⟨h, _⟩
  exact h

theorem slotAt_eq_of_getElem? {slots : List (Entry K V)} {i : Nat} {e : Entry K V}
    (hs : slots[i]? = some e) : slotAt slots i = e := by
  simp [slotAt, List.getD, hs]

theorem getElem?_eq_slotAt {slots : List (Entry K V)} {i : Nat}
    (hi : i < slots.length) : slots[i]? = some (slotAt slots i) := by
  simp [slotAt, List.getD, List.getElem?_eq_getElem hi]

theorem slotAt_set_self {slots : List (Entry K V)} {i : Nat} {e : Entry K V}
    (hi : i < slots.length) : slotAt (slots.set i e) i = e := by
  simp [slotAt, List.getD, List.getElem?_set_eq_of_lt e hi]

theorem slotAt_set_ne {slots : List (Entry K V)} {i j : Nat} {e : Entry K V}
    (hij : i ≠ j) : slotAt (slots.set i e) j = slotAt slots j := by
  simp [slotAt, List.getD, List.getElem?_set_ne hij]

theorem slotAt_replicate {n i : Nat} :
    slotAt (List.replicate n (Entry.empty : Entry K V)) i = Entry.empty := by
  by_cases hi : i < n
  · simp [slotAt, List.getD, List.getElem?_eq_getElem, hi, List.getElem_replicate]
  · simp [slotAt, List.getD, List.getElem?_eq_none, List.length_replicate, Nat.le_of_not_lt hi]

theorem step_mod {cap : Nat} (idx e : Nat) :
    ((idx + 1) % cap + e) % cap = (idx + (e + 1)) % cap := by
  rw [Nat.mod_add_mod]
  ring_nf

theorem distTo_lt {cap : Nat} (home i : Nat) (hcap : 0 < cap) :
    distTo cap home i < cap := Nat.mod_lt _ hcap

theorem add_distTo {cap home i : Nat} (hh : home < cap) (hi : i < cap) :
    (home + distTo cap home i) % cap = i := by
  have h1 : home + (i + (cap - home)) = i + cap := by omega
  calc (home + distTo cap home i) % cap
      = (home + (i + (cap - home)) % cap) % cap := rfl
    _ = (home + (i + (cap - home))) % cap := Nat.add_mod_mod home _ cap
    _ = (i + cap) % cap := by rw [h1]
    _ = i % cap := Nat.add_mod_right i cap
    _ = i := Nat.mod_eq_of_lt hi

theorem addMod_inj {cap home d1 d2 : Nat} (h1 : d1 < cap) (h2 : d2 < cap)
    (heq : (home + d1) % cap = (home + d2) % cap) : d1 = d2 := by
  have h3 : d1 ≡ d2 [MOD cap] := Nat.ModEq.add_left_cancel' home heq
  calc d1 = d1 % cap := (Nat.mod_eq_of_lt h1).symm
    _ = d2 % cap := h3
    _ = d2 := Nat.mod_eq_of_lt h2

theorem exists_offset (cap home i : Nat) (hh : home < cap) (hi : i < cap) :
    ∃ e, e < cap ∧ (home + e) % cap = i :=
  ⟨distTo cap home i, distTo_lt home i (Nat.lt_of_le_of_lt (Nat.zero_le home) hh),
    add_distTo hh hi⟩

theorem Entry.keyOf_of_activeKey {e : Entry K V} {k : K}
    (h : e.activeKey = some k) : e.keyOf = some k := by
  cases e with
  | empty => simp [Entry.activeKey] at h
  | stored k' v a =>
    cases a with
    | false => simp [Entry.activeKey] at h
    | true => simpa [Entry.activeKey, Entry.keyOf] using h

theorem Entry.occupied_iff_keyOf {e : Entry K V} :
    e.occupied = true ↔ e.keyOf ≠ none := by
  cases e <;> simp [Entry.occupied, Entry.keyOf]

/-! ### Probe path lemmas -/

theorem probeFind_path_found (slots : List (Entry K V)) (k : K) :
    ∀ d idx fuel, idx < slots.length → d < fuel →
    (∀ e, e < d → (slotAt slots ((idx + e) % slots.length)).occupied = true ∧
        (slotAt slots ((idx + e) % slots.length)).activeKey ≠ some k) →
    (slotAt slots ((idx + d) % slots.length)).activeKey = some k →
    probeFind slots k idx fuel = some ((idx + d) % slots.length) := by
  intro d
  induction d with
  | zero =>
    intro idx fuel hidx hfuel _ hstop
    obtain ⟨f, rfl⟩ : ∃ f, fuel = f + 1 := ⟨fuel - 1, by omega⟩
    have hidx0 : (idx + 0) % slots.length = idx := by
      simp [Nat.mod_eq_of_lt hidx]
    rw [hidx0] at hstop ⊢
    cases he : slotAt slots idx with
    | empty => rw [he] at hstop; simp [Entry.activeKey] at hstop
    | stored k' v a =>
      rw [he] at hstop
      cases a with
      | false => simp [Entry.activeKey] at hstop
      | true =>
        have hk : k' = k := by simpa [Entry.activeKey] using hstop
        have hs := getElem?_eq_slotAt hidx
        rw [he] at hs
        simp [probeFind, hs, hk]
  | succ d ih =>
    intro idx fuel hidx hfuel hpath hstop
    obtain ⟨f, rfl⟩ : ∃ f, fuel = f + 1 := ⟨fuel - 1, by omega⟩
    have hcap : 0 < slots.length := Nat.lt_of_le_of_lt (Nat.zero_le idx) hidx
    have h0 := hpath 0 (Nat.succ_pos d)
    have hidx0 : (idx + 0) % slots.length = idx := by
      simp [Nat.mod_eq_of_lt hidx]
    rw [hidx0] at h0
    cases he : slotAt slots idx with
    | empty => rw [he] at h0; simp [Entry.occupied] at h0
    | stored k' v a =>
      rw [he] at h0
      have hcond : ¬(k' = k ∧ a = true) := by
        rintro ⟨rfl, rfl⟩
        exact h0.2 (by simp [Entry.activeKey])
      have hs := getElem?_eq_slotAt hidx
      rw [he] at hs
      have hstep : probeFind slots k idx (f + 1) =
          probeFind slots k ((idx + 1) % slots.length) f := by
        simp [probeFind, hs, hcond]
      rw [hstep]
      have hidx' : (idx + 1) % slots.length < slots.length := Nat.mod_lt _ hcap
      have htrans : ∀ e, ((idx + 1) % slots.length + e) % slots.length =
          (idx + (e + 1)) % slots.length := fun e => step_mod idx e
      have hres := ih ((idx + 1) % slots.length) f hidx' (by omega)
        (fun e he' => by rw [htrans e]; exact hpath (e + 1) (by omega))
        (by rw [htrans d]; exact hstop)
      rw [hres, htrans d]

theorem probeFind_path_empty (slots : List (Entry K V)) (k : K) :
    ∀ d idx fuel, idx < slots.length → d < fuel →
    (∀ e, e < d → (slotAt slots ((idx + e) % slots.length)).occupied = true ∧
        (slotAt slots ((idx + e) % slots.length)).activeKey ≠ some k) →
    (slotAt slots ((idx + d) % slots.length)).occupied = false →
    probeFind slots k idx fuel = none := by
  intro d
  induction d with
  | zero =>
    intro idx fuel hidx hfuel _ hstop
    obtain ⟨f, rfl⟩ : ∃ f, fuel = f + 1 := ⟨fuel - 1, by omega⟩
    have hidx0 : (idx + 0) % slots.length = idx := by
      simp [Nat.mod_eq_of_lt hidx]
    rw [hidx0] at hstop
    cases he : slotAt slots idx with
    | stored k' v a => rw [he] at hstop; simp [Entry.occupied] at hstop
    | empty =>
      have hs := getElem?_eq_slotAt hidx
      rw [he] at hs
      simp [probeFind, hs]
  | succ d ih =>
    intro idx fuel hidx hfuel hpath hstop
    obtain ⟨f, rfl⟩ : ∃ f, fuel = f + 1 := ⟨fuel - 1, by omega⟩
    have hcap : 0 < slots.length := Nat.lt_of_le_of_lt (Nat.zero_le idx) hidx
    have h0 := hpath 0 (Nat.succ_pos d)
    have hidx0 : (idx + 0) % slots.length = idx := by
      simp [Nat.mod_eq_of_lt hidx]
    rw [hidx0] at h0
    cases he : slotAt slots idx with
    | empty => rw [he] at h0; simp [Entry.occupied] at h0
    | stored k' v a =>
      rw [he] at h0
      have hcond : ¬(k' = k ∧ a = true) := by
        rintro ⟨rfl, rfl⟩
        exact h0.2 (by simp [Entry.activeKey])
      have hs := getElem?_eq_slotAt hidx
      rw [he] at hs
      have hstep : probeFind slots k idx (f + 1) =
          probeFind slots k ((idx + 1) % slots.length) f := by
        simp [probeFind, hs, hcond]
      rw [hstep]
      have hidx' : (idx + 1) % slots.length < slots.length := Nat.mod_lt _ hcap
      have htrans : ∀ e, ((idx + 1) % slots.length + e) % slots.length =
          (idx + (e + 1)) % slots.length := fun e => step_mod idx e
      exact ih ((idx + 1) % slots.length) f hidx' (by omega)
        (fun e he' => by rw [htrans e]; exact hpath (e + 1) (by omega))
        (by rw [htrans d]; exact hstop)

theorem probeFind_none_of_no_match (slots : List (Entry K V)) (k : K)
    (hno : ∀ i, i < slots.length → (slotAt slots i).activeKey ≠ some k) :
    ∀ fuel idx, probeFind slots k idx fuel = none := by
  intro fuel
  induction fuel with
  | zero => intro idx; rfl
  | succ f ih =>
    intro idx
    cases hs : slots[idx]? with
    | none => simp [probeFind, hs]
    | some e =>
      cases e with
      | empty => simp [probeFind, hs]
      | stored k' v a =>
        have hi : idx < slots.length := lt_of_getElem?_some hs
        have hcond : ¬(k' = k ∧ a = true) := by
          rintro ⟨rfl, rfl⟩
          exact hno idx hi (by rw [slotAt_eq_of_getElem? hs]; simp [Entry.activeKey])
        simp [probeFind, hs, hcond, ih]

theorem probeFind_some (slots : List (Entry K V)) (k : K) :
    ∀ fuel idx j, probeFind slots k idx fuel = some j →
    j < slots.length ∧ (slotAt slots j).activeKey = some k := by
  intro fuel
  induction fuel with
  | zero => intro idx j h; exact absurd h (by simp [probeFind])
  | succ f ih =>
    intro idx j h
    cases hs : slots[idx]? with
    | none => rw [probeFind, hs] at h; exact absurd h (by simp)
    | some e =>
      cases e with
      | empty => rw [probeFind, hs] at h; exact absurd h (by simp)
      | stored k' v a =>
        simp only [probeFind, hs] at h
        by_cases hcond : k' = k ∧ a = true
        · rw [if_pos hcond] at h
          obtain rfl : idx = j := Option.some_injective _ h
          refine ⟨lt_of_getElem?_some hs, ?_⟩
          rw [slotAt_eq_of_getElem? hs, hcond.1, hcond.2]
          simp [Entry.activeKey]
        · rw [if_neg hcond] at h
          exact ih _ j h

theorem probeInsert_path (slots : List (Entry K V)) (k : K) :
    ∀ d idx fuel, idx < slots.length → d < fuel →
    (∀ e, e < d → ∃ k', (slotAt slots ((idx + e) % slots.length)).keyOf = some k' ∧
        k' ≠ k) →
    ((slotAt slots ((idx + d) % slots.length)).keyOf = none ∨
      (slotAt slots ((idx + d) % slots.length)).keyOf = some k) →
    probeInsert slots k idx fuel = some ((idx + d) % slots.length) := by
  intro d
  induction d with
  | zero =>
    intro idx fuel hidx hfuel _ hstop
    obtain ⟨f, rfl⟩ : ∃ f, fuel = f + 1 := ⟨fuel - 1, by omega⟩
    have hidx0 : (idx + 0) % slots.length = idx := by
      simp [Nat.mod_eq_of_lt hidx]
    rw [hidx0] at hstop ⊢
    have hs := getElem?_eq_slotAt hidx
    cases he : slotAt slots idx with
    | empty =>
      rw [he] at hs
      simp [probeInsert, hs]
    | stored k' v a =>
      rw [he] at hstop hs
      rcases hstop with hstop | hstop
      · simp [Entry.keyOf] at hstop
      · have hk : k' = k := by simpa [Entry.keyOf] using hstop
        simp [probeInsert, hs, hk]
  | succ d ih =>
    intro idx fuel hidx hfuel hpath hstop
    obtain ⟨f, rfl⟩ : ∃ f, fuel = f + 1 := ⟨fuel - 1, by omega⟩
    have hcap : 0 < slots.length := Nat.lt_of_le_of_lt (Nat.zero_le idx) hidx
    have h0 := hpath 0 (Nat.succ_pos d)
    have hidx0 : (idx + 0) % slots.length = idx := by
      simp [Nat.mod_eq_of_lt hidx]
    rw [hidx0] at h0
    obtain ⟨k0, hk0, hk0ne⟩ := h0
    cases he : slotAt slots idx with
    | empty => rw [he] at hk0; simp [Entry.keyOf] at hk0
    | stored k' v a =>
      rw [he] at hk0
      have hk' : k' = k0 := by simpa [Entry.keyOf] using hk0
      have hs := getElem?_eq_slotAt hidx
      rw [he] at hs
      have hcond : ¬(k' = k) := by rw [hk']; exact hk0ne
      have hstep : probeInsert slots k idx (f + 1) =
          probeInsert slots k ((idx + 1) % slots.length) f := by
        simp [probeInsert, hs, hcond]
      rw [hstep]
      have hidx' : (idx + 1) % slots.length < slots.length := Nat.mod_lt _ hcap
      have htrans : ∀ e, ((idx + 1) % slots.length + e) % slots.length =
          (idx + (e + 1)) % slots.length := fun e => step_mod idx e
      have hres := ih ((idx + 1) % slots.length) f hidx' (by omega)
        (fun e he' => by rw [htrans e]; exact hpath (e + 1) (by omega))
        (by rw [htrans d]; exact hstop)
      rw [hres, htrans d]

theorem probeInsert_some (slots : List (Entry K V)) (k : K) :
    ∀ fuel idx j, probeInsert slots k idx fuel = some j →
    ∃ d, d < fuel ∧ j = (idx + d) % slots.length ∧ j < slots.length ∧
      ((slotAt slots j).keyOf = none ∨ (slotAt slots j).keyOf = some k) ∧
      ∀ e, e < d → ∃ k', (slotAt slots ((idx + e) % slots.length)).keyOf = some k' ∧
        k' ≠ k := by
  intro fuel
  induction fuel with
  | zero => intro idx j h; exact absurd h (by simp [probeInsert])
  | succ f ih =>
    intro idx j h
    cases hs : slots[idx]? with
    | none => rw [probeInsert, hs] at h; exact absurd h (by simp)
    | some e =>
      have hi : idx < slots.length := lt_of_getElem?_some hs
      have hidx0 : (idx + 0) % slots.length = idx := by
        simp [Nat.mod_eq_of_lt hi]
      cases e with
      | empty =>
        simp only [probeInsert, hs] at h
        obtain rfl : idx = j := Option.some_injective _ h
        refine ⟨0, by omega, by rw [hidx0], hi, ?_, by omega⟩
        left
        rw [slotAt_eq_of_getElem? hs]
        simp [Entry.keyOf]
      | stored k' v a =>
        simp only [probeInsert, hs] at h
        by_cases hcond : k' = k
        · rw [if_pos hcond] at h
          obtain rfl : idx = j := Option.some_injective _ h
          refine ⟨0, by omega, by rw [hidx0], hi, ?_, by omega⟩
          right
          rw [slotAt_eq_of_getElem? hs, hcond]
          simp [Entry.keyOf]
        · rw [if_neg hcond] at h
          obtain ⟨d', hd'f, hj, hjlt, hstop, hpath⟩ := ih _ j h
          have htrans : ∀ e, ((idx + 1) % slots.length + e) % slots.length =
              (idx + (e + 1)) % slots.length := fun e => step_mod idx e
          refine ⟨d' + 1, by omega, by rw [hj, htrans d'], hjlt, hstop, ?_⟩
          intro e he
          cases e with
          | zero =>
            refine ⟨k', ?_, hcond⟩
            rw [hidx0, slotAt_eq_of_getElem? hs]
            simp [Entry.keyOf]
          | succ e' =>
            rw [← htrans e']
            exact hpath e' (by omega)

theorem probeInsert_none_of_all_mismatch (slots : List (Entry K V)) (k : K)
    (hall : ∀ i, i < slots.length →
      ∃ k', (slotAt slots i).keyOf = some k' ∧ k' ≠ k) :
    ∀ fuel idx, probeInsert slots k idx fuel = none := by
  intro fuel
  induction fuel with
  | zero => intro idx; rfl
  | succ f ih =>
    intro idx
    cases hs : slots[idx]? with
    | none => simp [probeInsert, hs]
    | some e =>
      have hi : idx < slots.length := lt_of_getElem?_some hs
      obtain ⟨k', hk', hk'ne⟩ := hall idx hi
      cases e with
      | empty =>
        rw [slotAt_eq_of_getElem? hs] at hk'
        simp [Entry.keyOf] at hk'
      | stored k0 v a =>
        rw [slotAt_eq_of_getElem? hs] at hk'
        have : k0 = k' := by simpa [Entry.keyOf] using hk'
        subst this
        simp [probeInsert, hs, hk'ne, ih]

/-! ### Unfolding the operations -/

theorem insert_eq_some {h : K → Nat} {t : HashTable K V} {k : K} {v : V} {idx : Nat}
    (hp : probeInsert t.slots k (hashFunction h t.slots.length k) t.slots.length =
      some idx) :
    insert h t k v = some ⟨t.slots.set idx (Entry.stored k v true), t.size⟩ := by
  have hidx : idx < t.slots.length := by
    obtain ⟨d, _, _, hlt, _, _⟩ := probeInsert_some t.slots k _ _ idx hp
    exact hlt
  have hset : slotAt (t.slots.set idx (Entry.stored k v true)) idx =
      Entry.stored k v true := slotAt_set_self hidx
  unfold insert
  rw [hp]
  simp [hset, Entry.active]

theorem insert_some_elim {h : K → Nat} {t t' : HashTable K V} {k : K} {v : V}
    (hins : insert h t k v = some t') :
    ∃ idx,
      probeInsert t.slots k (hashFunction h t.slots.length k) t.slots.length =
        some idx ∧
      t' = ⟨t.slots.set idx (Entry.stored k v true), t.size⟩ := by
  cases hp : probeInsert t.slots k (hashFunction h t.slots.length k)
      t.slots.length with
  | none => rw [insert, hp] at hins; exact absurd hins (by simp)
  | some idx =>
    refine ⟨idx, rfl, ?_⟩
    have h1 := insert_eq_some (v := v) hp
    rw [h1] at hins
    exact (Option.some_injective _ hins).symm

theorem remove_none_elim {h : K → Nat} {t : HashTable K V} {k : K}
    (hp : probeFind t.slots k (hashFunction h t.slots.length k) t.slots.length =
      none) :
    remove h t k = (false, t) := by
  rw [remove, hp]

theorem remove_some_elim {h : K → Nat} {t : HashTable K V} {k : K} {idx : Nat}
    (hp : probeFind t.slots k (hashFunction h t.slots.length k) t.slots.length =
      some idx) :
    remove h t k =
      (true, ⟨t.slots.set idx (slotAt t.slots idx).deactivate, t.size - 1⟩) := by
  rw [remove, hp]

/-- Core round-trip lemma: after a successful insert at slot `idx`, the find
probe for the same key stops exactly at `idx` — the slots the insert probe
passed are unchanged occupied slots with other keys, and slot `idx` is now an
occupied, active match. -/
theorem probeFind_after_insert {h : K → Nat} {t : HashTable K V} {k : K} {v : V}
    {idx : Nat}
    (hp : probeInsert t.slots k (hashFunction h t.slots.length k) t.slots.length =
      some idx) :
    probeFind (t.slots.set idx (Entry.stored k v true)) k
      (hashFunction h t.slots.length k) t.slots.length = some idx := by
  obtain ⟨d, hd, hj, hidx, _, hpath⟩ := probeInsert_some t.slots k _ _ idx hp
  set cap := t.slots.length with hcap_def
  set home := hashFunction h cap k with hhome_def
  have hcap : 0 < cap := Nat.lt_of_le_of_lt (Nat.zero_le idx) hidx
  have hhome : home < cap := Nat.mod_lt _ hcap
  set slots' := t.slots.set idx (Entry.stored k v true) with hslots'
  have hlen : slots'.length = cap := List.length_set t.slots idx _
  have hset : slotAt slots' idx = Entry.stored k v true := slotAt_set_self hidx
  have hfind := probeFind_path_found slots' k d home cap
    (by rw [hlen]; exact hhome) hd ?_ ?_
  · rw [hlen] at hfind
    rw [hfind, ← hj]
  · intro e he
    rw [hlen]
    have hne : idx ≠ (home + e) % cap := by
      intro heq
      have : e = d :=
        addMod_inj (Nat.lt_trans he hd) hd (by rw [← heq, hj])
      omega
    rw [slotAt_set_ne hne]
    obtain ⟨k', hk', hk'ne⟩ := hpath e he
    constructor
    · exact Entry.occupied_iff_keyOf.mpr (by rw [hk']; simp)
    · intro hak
      rw [Entry.keyOf_of_activeKey hak] at hk'
      exact hk'ne (by simpa using hk'.symm)
  · rw [hlen, ← hj, hset]
    simp [Entry.activeKey]

/-- After a successful `insert(key, value)`, `retrieve(key)` returns `value`. -/
theorem retrieve_after_insert {h : K → Nat} {t t' : HashTable K V} {k : K} {v : V}
    (hins : insert h t k v = some t') : retrieve h t' k = some v := by
  obtain ⟨idx, hp, rfl⟩ := insert_some_elim hins
  have hidx : idx < t.slots.length := by
    obtain ⟨d, _, _, hlt, _, _⟩ := probeInsert_some t.slots k _ _ idx hp
    exact hlt
  have hfind := probeFind_after_insert (v := v) hp
  rw [retrieve]
  simp only [List.length_set]
  simp only [hfind]
  rw [slotAt_set_self hidx]
  simp [Entry.valueOf]

/-! ### The invariant holds in every reachable state -/

theorem Entry.keyOf_deactivate {e : Entry K V} :
    (Entry.deactivate e).keyOf = e.keyOf := by
  cases e <;> rfl

theorem inv_mkTable (h : K → Nat) (cap : Nat) : Inv h (mkTable K V cap) := by
  intro i hi k' hk'
  simp only [mkTable] at hk'
  rw [slotAt_replicate] at hk'
  simp [Entry.keyOf] at hk'

theorem inv_congr {h : K → Nat} {t : HashTable K V} {slots' : List (Entry K V)}
    {s' : Int} (hlen : slots'.length = t.slots.length)
    (hkeys : ∀ j, (slotAt slots' j).keyOf = (slotAt t.slots j).keyOf)
    (hinv : Inv h t) : Inv h ⟨slots', s'⟩ := by
  intro i hi k' hk'
  simp only at hi hk' ⊢
  rw [hkeys i] at hk'
  rw [hlen] at hi
  obtain ⟨huniq, hpath⟩ := hinv i hi k' hk'
  constructor
  · intro j hj hkj
    rw [hlen] at hj
    rw [hkeys j] at hkj
    exact huniq j hj hkj
  · intro e he
    rw [hlen] at he ⊢
    rw [hkeys _]
    exact hpath e he

/-- Under the invariant, a successful insert probe for `k` stops at the one
slot that can hold `k`: any slot already holding `k` is the probe's
destination. -/
theorem insert_unique_key {h : K → Nat} {t : HashTable K V} {k : K} {idx : Nat}
    (hinv : Inv h t)
    (hp : probeInsert t.slots k (hashFunction h t.slots.length k) t.slots.length =
      some idx) :
    ∀ j, j < t.slots.length → (slotAt t.slots j).keyOf = some k → j = idx := by
  obtain ⟨d, hd, hj, hidx, hstop, hpath⟩ := probeInsert_some t.slots k _ _ idx hp
  intro j hjlt hkj
  set cap := t.slots.length with hcapdef
  set home := hashFunction h cap k with hhomedef
  have hcap : 0 < cap := Nat.lt_of_le_of_lt (Nat.zero_le idx) hidx
  have hhome : home < cap := Nat.mod_lt _ hcap
  by_contra hne
  obtain ⟨huniq_j, hpath_j⟩ := hinv j hjlt k hkj
  have hdj_lt : distTo cap home j < cap := distTo_lt home j hcap
  have hdj_eq : (home + distTo cap home j) % cap = j := add_distTo hhome hjlt
  rcases Nat.lt_trichotomy (distTo cap home j) d with hlt | heq | hgt
  · obtain ⟨k', hk', hk'ne⟩ := hpath (distTo cap home j) hlt
    rw [hdj_eq, hkj] at hk'
    exact hk'ne (by simpa using hk'.symm)
  · exact hne (by rw [← hdj_eq, heq, ← hj])
  · have h1 := hpath_j d hgt
    rw [← hj] at h1
    rcases hstop with h2 | h2
    · exact h1 h2
    · exact hne (huniq_j idx hidx h2).symm

theorem inv_insert {h : K → Nat} {t t' : HashTable K V} {k : K} {v : V}
    (hinv : Inv h t) (hins : insert h t k v = some t') : Inv h t' := by
  obtain ⟨idx, hp, rfl⟩ := insert_some_elim hins
  obtain ⟨d, hd, hj, hidx, hstop, hpath⟩ := probeInsert_some t.slots k _ _ idx hp
  have huniq_k := insert_unique_key hinv hp
  set cap := t.slots.length with hcapdef
  set home := hashFunction h cap k with hhomedef
  have hcap : 0 < cap := Nat.lt_of_le_of_lt (Nat.zero_le idx) hidx
  have hhome : home < cap := Nat.mod_lt _ hcap
  set slots' := t.slots.set idx (Entry.stored k v true) with hslots'
  have hlen : slots'.length = cap := List.length_set t.slots idx _
  have hAtIdx : slotAt slots' idx = Entry.stored k v true := slotAt_set_self hidx
  have hAt : ∀ j, j ≠ idx → slotAt slots' j = slotAt t.slots j :=
    fun j hj' => slotAt_set_ne (fun he => hj' he.symm)
  have hdid : distTo cap home idx = d := by
    apply addMod_inj (distTo_lt home idx hcap) hd
    rw [add_distTo hhome hidx, ← hj]
  intro i hi k₁ hk₁
  simp only at hi hk₁ ⊢
  rw [hlen] at hi
  by_cases hiidx : i = idx
  · subst hiidx
    rw [hAtIdx] at hk₁
    obtain rfl : k = k₁ := by simpa [Entry.keyOf] using hk₁
    constructor
    · intro j hj hkj
      rw [hlen] at hj
      by_cases hjidx : j = i
      · exact hjidx
      · rw [hAt j hjidx] at hkj
        exact huniq_k j hj hkj
    · intro e he
      rw [hlen] at he ⊢
      rw [← hhomedef] at he ⊢
      rw [hdid] at he
      by_cases hee : (home + e) % cap = i
      · rw [hee, hAtIdx]
        simp [Entry.keyOf]
      · rw [hAt _ hee]
        obtain ⟨k', hk', _⟩ := hpath e he
        rw [hk']
        simp
  · rw [hAt i hiidx] at hk₁
    by_cases hkk : k₁ = k
    · subst hkk
      exact absurd (huniq_k i hi hk₁) hiidx
    · obtain ⟨huniq_i, hpath_i⟩ := hinv i hi k₁ hk₁
      constructor
      · intro j hj hkj
        rw [hlen] at hj
        by_cases hjidx : j = idx
        · subst hjidx
          rw [hAtIdx] at hkj
          have : k = k₁ := by simpa [Entry.keyOf] using hkj
          exact absurd this.symm hkk
        · rw [hAt j hjidx] at hkj
          exact huniq_i j hj hkj
      · intro e he
        rw [hlen] at he ⊢
        by_cases hee : (hashFunction h cap k₁ + e) % cap = idx
        · rw [hee, hAtIdx]
          simp [Entry.keyOf]
        · rw [hAt _ hee]
          exact hpath_i e he

theorem inv_remove {h : K → Nat} (t : HashTable K V) (k : K) (hinv : Inv h t) :
    Inv h (remove h t k).2 := by
  cases hp : probeFind t.slots k (hashFunction h t.slots.length k)
      t.slots.length with
  | none => rw [remove_none_elim hp]; exact hinv
  | some idx =>
    obtain ⟨hidx, hak⟩ := probeFind_some t.slots k _ _ idx hp
    rw [remove_some_elim hp]
    apply inv_congr (t := t)
    · exact List.length_set t.slots idx _
    · intro j
      by_cases hj : j = idx
      · subst hj
        rw [slotAt_set_self hidx, Entry.keyOf_deactivate]
      · rw [slotAt_set_ne (fun he => hj he.symm)]
    · exact hinv

theorem reachable_inv {h : K → Nat} {t : HashTable K V} (hr : Reachable h t) :
    Inv h t := by
  induction hr with
  | init cap => exact inv_mkTable h cap
  | insertOk hr hins ih => exact inv_insert ih hins
  | removeStep k hr ih => exact inv_remove _ k ih

/-! ### The claims -/

/-- C1: the claim says a successful `insert` into a slot whose active flag was
false increments `liveCount` by one.  The code reads the `active` flag only
after overwriting the slot with an always-active entry, so the increment never
happens: inserting key 0 into a fresh capacity-3 table fills slot 0 (which was
inactive before the call) yet leaves `size = 0`. -/
theorem insert_never_increments_size :
    (slotAt (mkTable Nat Nat 3).slots 0).active = false ∧
    insert id (mkTable Nat Nat 3) 0 5 =
      some ⟨[Entry.stored 0 5 true, Entry.empty, Entry.empty], 0⟩ := by decide

/-- C2: the claim says `liveCount` always equals the number of occupied,
active slots and stays within `[0, capacity]`.  Because `insert` never
increments `size` (see the C1 bug) while `remove` decrements it, the sequence
insert(0,5); remove(0) on a fresh capacity-3 table drives `size` to `-1`
while no slot is live. -/
theorem size_invariant_fails :
    (run id 3 [Op.ins 0 5, Op.rem 0] : HashTable Nat Nat).size = -1 ∧
    activeCount (run id 3 [Op.ins 0 5, Op.rem 0] : HashTable Nat Nat) = 0 := by
  decide

/-- C3: whenever `insert(k, v)` returns successfully, an immediately
following `retrieve(k)` returns `v`. -/
theorem insert_retrieve_round_trip (h : K → Nat) (t t' : HashTable K V) (k : K)
    (v : V) (hins : insert h t k v = some t') : retrieve h t' k = some v :=
  retrieve_after_insert hins

theorem insert_retrieve_round_trip_witness :
    retrieve id
      (⟨[Entry.empty, Entry.empty, Entry.stored 5 7 true], 0⟩ : HashTable Nat Nat)
      5 = some 7 :=
  insert_retrieve_round_trip id (mkTable Nat Nat 3) _ 5 7 (by decide)

/-- C4: a reachable state (capacity 2; insert keys 0 and 2, both with home
slot 0, then remove key 0) in which inserting key 4 (home slot 0 as well)
wraps fully around and fails with `TableFull`, although only one slot is live
and `size < capacity`: the tombstone at slot 0 holds key 0 ≠ 4, so it does not
stop the insert probe. -/
theorem tableFull_despite_free_slots :
    insert id (run id 2 [Op.ins 0 10, Op.ins 2 20, Op.rem 0] : HashTable Nat Nat)
        4 30 = none ∧
    activeCount (run id 2 [Op.ins 0 10, Op.ins 2 20, Op.rem 0] :
      HashTable Nat Nat) = 1 ∧
    (run id 2 [Op.ins 0 10, Op.ins 2 20, Op.rem 0] : HashTable Nat Nat).size < 2 ∧
    (run id 2 [Op.ins 0 10, Op.ins 2 20, Op.rem 0] :
      HashTable Nat Nat).slots.length = 2 := by decide

/-- C5: starting from a reachable table, after a successful `insert(k, v)`
followed by `remove(k)`: the remove returns true, a subsequent `retrieve(k)`
fails with `KeyNotFound`, and a second `remove(k)` returns false and leaves
the table unchanged. -/
theorem insert_remove_then_lookup (h : K → Nat) (t t₁ : HashTable K V) (k : K)
    (v : V) (hr : Reachable h t) (hins : insert h t k v = some t₁) :
    (remove h t₁ k).1 = true ∧
    retrieve h (remove h t₁ k).2 k = none ∧
    remove h (remove h t₁ k).2 k = (false, (remove h t₁ k).2) := by
  have hinv := reachable_inv hr
  obtain ⟨idx, hp, rfl⟩ := insert_some_elim hins
  obtain ⟨d, hd, hj, hidx, hstop, hpath⟩ := probeInsert_some t.slots k _ _ idx hp
  have huniq_k := insert_unique_key hinv hp
  set cap := t.slots.length with hcapdef
  set slots1 := t.slots.set idx (Entry.stored k v true) with hslots1
  have hlen1 : slots1.length = cap := List.length_set t.slots idx _
  have hAt1 : slotAt slots1 idx = Entry.stored k v true := slotAt_set_self hidx
  have hfind1 : probeFind slots1 k (hashFunction h slots1.length k) slots1.length =
      some idx := by
    rw [hlen1]
    exact probeFind_after_insert (v := v) hp
  have hdeact : (slotAt slots1 idx).deactivate = Entry.stored k v false := by
    rw [hAt1]
    rfl
  have hrem1 : remove h ⟨slots1, t.size⟩ k =
      (true, ⟨slots1.set idx (Entry.stored k v false), t.size - 1⟩) := by
    have := remove_some_elim (t := ⟨slots1, t.size⟩) hfind1
    rw [this, hdeact]
  set slots2 := slots1.set idx (Entry.stored k v false) with hslots2
  have hlen2 : slots2.length = cap := by rw [hslots2, List.length_set, hlen1]
  have hidx2 : idx < slots1.length := by rw [hlen1]; exact hidx
  have hno : ∀ i, i < slots2.length → (slotAt slots2 i).activeKey ≠ some k := by
    intro i hi hak
    by_cases hii : i = idx
    · subst hii
      rw [slotAt_set_self hidx2] at hak
      simp [Entry.activeKey] at hak
    · rw [slotAt_set_ne (fun he => hii he.symm),
          slotAt_set_ne (fun he => hii he.symm)] at hak
      have hki := Entry.keyOf_of_activeKey hak
      exact hii (huniq_k i (by rw [← hlen2]; exact hi) hki)
  have hfind2 : ∀ fuel i2, probeFind slots2 k i2 fuel = none :=
    fun fuel i2 => probeFind_none_of_no_match slots2 k hno fuel i2
  rw [hrem1]
  refine ⟨rfl, ?_, ?_⟩
  · rw [retrieve]
    simp only [hfind2]
  · exact remove_none_elim (hfind2 _ _)

theorem insert_remove_then_lookup_witness :
    (remove id (⟨[Entry.stored 0 5 true, Entry.empty], 0⟩ : HashTable Nat Nat) 0).1 =
      true ∧
    retrieve id
      (remove id (⟨[Entry.stored 0 5 true, Entry.empty], 0⟩ : HashTable Nat Nat)
        0).2 0 = none ∧
    remove id
      (remove id (⟨[Entry.stored 0 5 true, Entry.empty], 0⟩ : HashTable Nat Nat)
        0).2 0 =
      (false,
        (remove id (⟨[Entry.stored 0 5 true, Entry.empty], 0⟩ : HashTable Nat Nat)
          0).2) :=
  insert_remove_then_lookup id (mkTable Nat Nat 2) _ 0 5 (Reachable.init 2)
    (by decide)

/-- C6: starting from a reachable table, inserting `(k, v₁)` and then
`(k, v₂)` succeeds, leaves exactly one live slot holding `k`, and
`retrieve(k)` returns `v₂`. -/
theorem insert_twice_updates (h : K → Nat) (t t₁ : HashTable K V) (k : K)
    (v₁ v₂ : V) (hr : Reachable h t) (hins : insert h t k v₁ = some t₁) :
    ∃ t₂, insert h t₁ k v₂ = some t₂ ∧
      retrieve h t₂ k = some v₂ ∧
      ∃ i, i < t₂.slots.length ∧ (slotAt t₂.slots i).activeKey = some k ∧
        ∀ j, j < t₂.slots.length → (slotAt t₂.slots j).activeKey = some k →
          j = i := by
  have hinv := reachable_inv hr
  obtain ⟨idx, hp, rfl⟩ := insert_some_elim hins
  obtain ⟨d, hd, hj, hidx, hstop, hpath⟩ := probeInsert_some t.slots k _ _ idx hp
  have huniq_k := insert_unique_key hinv hp
  set cap := t.slots.length with hcapdef
  set home := hashFunction h cap k with hhomedef
  have hcap : 0 < cap := Nat.lt_of_le_of_lt (Nat.zero_le idx) hidx
  have hhome : home < cap := Nat.mod_lt _ hcap
  set slots1 := t.slots.set idx (Entry.stored k v₁ true) with hslots1
  have hlen1 : slots1.length = cap := List.length_set t.slots idx _
  have hidx1 : idx < slots1.length := by rw [hlen1]; exact hidx
  have hAt1 : slotAt slots1 idx = Entry.stored k v₁ true := slotAt_set_self hidx
  have hp2 : probeInsert slots1 k (hashFunction h slots1.length k) slots1.length =
      some idx := by
    rw [hlen1, ← hhomedef]
    have hstep := probeInsert_path slots1 k d home cap (by rw [hlen1]; exact hhome)
      hd ?_ ?_
    · rw [hlen1] at hstep
      rw [hstep, ← hj]
    · intro e he
      rw [hlen1]
      have hne : idx ≠ (home + e) % cap := by
        intro heq
        have : e = d := addMod_inj (Nat.lt_trans he hd) hd (by rw [← heq, hj])
        omega
      rw [slotAt_set_ne hne]
      exact hpath e he
    · rw [hlen1, ← hj, hAt1]
      right
      simp [Entry.keyOf]
  have hins2 : insert h ⟨slots1, t.size⟩ k v₂ =
      some ⟨slots1.set idx (Entry.stored k v₂ true), t.size⟩ :=
    insert_eq_some (t := ⟨slots1, t.size⟩) hp2
  refine ⟨⟨slots1.set idx (Entry.stored k v₂ true), t.size⟩, hins2,
    retrieve_after_insert hins2, idx, ?_, ?_, ?_⟩
  · simp only [List.length_set]
    exact hidx1
  · rw [slotAt_set_self hidx1]
    simp [Entry.activeKey]
  · intro j hjlt hak
    simp only [List.length_set] at hjlt
    by_cases hjidx : j = idx
    · exact hjidx
    · rw [slotAt_set_ne (fun he => hjidx he.symm),
          slotAt_set_ne (fun he => hjidx he.symm)] at hak
      exact huniq_k j (by rw [← hlen1]; exact hjlt)
        (Entry.keyOf_of_activeKey hak)

theorem insert_twice_updates_witness :
    ∃ t₂, insert id (⟨[Entry.stored 0 5 true, Entry.empty], 0⟩ : HashTable Nat Nat)
        0 9 = some t₂ ∧
      retrieve id t₂ 0 = some 9 ∧
      ∃ i, i < t₂.slots.length ∧ (slotAt t₂.slots i).activeKey = some 0 ∧
        ∀ j, j < t₂.slots.length → (slotAt t₂.slots j).activeKey = some 0 →
          j = i :=
  insert_twice_updates id (mkTable Nat Nat 2) _ 0 5 9 (Reachable.init 2)
    (by decide)

theorem slotAt_eq_get {slots : List (Entry K V)} {i : Nat} (hi : i < slots.length) :
    slotAt slots i = slots.get ⟨i, hi⟩ := by
  simp [slotAt, List.getD, List.getElem?_eq_getElem hi]

/-- C7: in every reachable table state, no two occupied, active slots hold
the same key (initial state plus preservation by insert, retrieve and
remove). -/
theorem no_duplicate_active_keys {h : K → Nat} {t : HashTable K V}
    (hr : Reachable h t) :
    t.slots.Pairwise
      (fun e₁ e₂ => e₁.activeKey = none ∨ e₁.activeKey ≠ e₂.activeKey) := by
  have hinv := reachable_inv hr
  rw [List.pairwise_iff_get]
  intro i j hij
  by_cases h1 : (t.slots.get i).activeKey = none
  · exact Or.inl h1
  refine Or.inr fun heq => ?_
  obtain ⟨k₀, hk₀⟩ := Option.ne_none_iff_exists'.mp h1
  have hgi : slotAt t.slots i.1 = t.slots.get i := slotAt_eq_get i.2
  have hgj : slotAt t.slots j.1 = t.slots.get j := slotAt_eq_get j.2
  have hki : (slotAt t.slots i.1).keyOf = some k₀ :=
    Entry.keyOf_of_activeKey (by rw [hgi]; exact hk₀)
  have hkj : (slotAt t.slots j.1).keyOf = some k₀ :=
    Entry.keyOf_of_activeKey (by rw [hgj, ← heq]; exact hk₀)
  obtain ⟨huniq, _⟩ := hinv i.1 i.2 k₀ hki
  have : j.1 = i.1 := huniq j.1 j.2 hkj
  omega

theorem no_duplicate_active_keys_witness :
    (mkTable Nat Nat 3).slots.Pairwise
      (fun e₁ e₂ => e₁.activeKey = none ∨ e₁.activeKey ≠ e₂.activeKey) :=
  no_duplicate_active_keys (h := id) (Reachable.init 3)

/-- C8: `remove` is total (never an error).  From a reachable state: if no
occupied, active slot matches the key, it returns false and leaves slots and
`size` unchanged; if some occupied, active slot matches, it returns true,
exactly that slot's active flag is cleared, and `size` is decremented. -/
theorem remove_total_spec {h : K → Nat} {t : HashTable K V} (k : K)
    (hr : Reachable h t) :
    ((∀ i, i < t.slots.length → (slotAt t.slots i).activeKey ≠ some k) →
      remove h t k = (false, t)) ∧
    (∀ i, i < t.slots.length → (slotAt t.slots i).activeKey = some k →
      remove h t k =
        (true, ⟨t.slots.set i (slotAt t.slots i).deactivate, t.size - 1⟩)) := by
  have hinv := reachable_inv hr
  constructor
  · intro hno
    exact remove_none_elim (probeFind_none_of_no_match t.slots k hno _ _)
  · intro i hi hak
    have hki := Entry.keyOf_of_activeKey hak
    obtain ⟨huniq_i, hpath_i⟩ := hinv i hi k hki
    set cap := t.slots.length with hcapdef
    set home := hashFunction h cap k with hhomedef
    have hcap : 0 < cap := Nat.lt_of_le_of_lt (Nat.zero_le i) hi
    have hhome : home < cap := Nat.mod_lt _ hcap
    have hdlt : distTo cap home i < cap := distTo_lt home i hcap
    have hde : (home + distTo cap home i) % cap = i := add_distTo hhome hi
    have hfind := probeFind_path_found t.slots k (distTo cap home i) home cap
      hhome hdlt ?_ ?_
    · rw [hde] at hfind
      exact remove_some_elim hfind
    · intro e he
      constructor
      · have := hpath_i e he
        exact Entry.occupied_iff_keyOf.mpr this
      · intro hak'
        have hk' := Entry.keyOf_of_activeKey hak'
        have h1 : (home + e) % cap = i := huniq_i _ (Nat.mod_lt _ hcap) hk'
        have : e = distTo cap home i :=
          addMod_inj (Nat.lt_trans he hdlt) hdlt (by rw [h1, hde])
        omega
    · rw [hde]
      exact hak

theorem remove_total_spec_witness :
    remove id (mkTable Nat Nat 2) 0 = (false, mkTable Nat Nat 2) :=
  (remove_total_spec 0 (Reachable.init 2)).1 (by decide)

/-- C9: with a positive capacity, the home index and every probe step stay in
`[0, capacity)`, and both probe loops only ever stop at in-range indices. -/
theorem probe_indices_in_range (h : K → Nat) (k : K) (slots : List (Entry K V))
    (hcap : 0 < slots.length) :
    hashFunction h slots.length k < slots.length ∧
    (∀ i, (i + 1) % slots.length < slots.length) ∧
    (∀ fuel idx j, probeInsert slots k idx fuel = some j → j < slots.length) ∧
    (∀ fuel idx j, probeFind slots k idx fuel = some j → j < slots.length) := by
  refine ⟨Nat.mod_lt _ hcap, fun i => Nat.mod_lt _ hcap, ?_, ?_⟩
  · intro fuel idx j hp
    obtain ⟨d, _, _, hlt, _, _⟩ := probeInsert_some slots k fuel idx j hp
    exact hlt
  · intro fuel idx j hp
    exact (probeFind_some slots k fuel idx j hp).1

theorem probe_indices_in_range_witness :
    hashFunction id ([Entry.empty] : List (Entry Nat Nat)).length 0 <
      ([Entry.empty] : List (Entry Nat Nat)).length :=
  (probe_indices_in_range id 0 [Entry.empty] (by decide)).1

theorem probeFind_fuel_stable (slots : List (Entry K V)) (k : K) (idx : Nat)
    (hidx : idx < slots.length) (f : Nat) (hf : slots.length ≤ f) :
    probeFind slots k idx f = probeFind slots k idx slots.length := by
  set cap := slots.length with hcapdef
  by_cases hex : ∃ e, (slotAt slots ((idx + e) % cap)).occupied = false ∨
      (slotAt slots ((idx + e) % cap)).activeKey = some k
  · set d := Nat.find hex with hddef
    have hdP := Nat.find_spec hex
    have hpass : ∀ e, e < d →
        (slotAt slots ((idx + e) % cap)).occupied = true ∧
        (slotAt slots ((idx + e) % cap)).activeKey ≠ some k := by
      intro e he
      have hne := Nat.find_min hex he
      push_neg at hne
      exact ⟨by simpa using hne.1, hne.2⟩
    have hdlt : d < cap := by
      by_contra hge
      push_neg at hge
      obtain ⟨e, helt, heq⟩ :=
        exists_offset cap idx ((idx + d) % cap) hidx
          (Nat.mod_lt _ (Nat.lt_of_le_of_lt (Nat.zero_le idx) hidx))
      have := hpass e (Nat.lt_of_lt_of_le helt hge)
      rw [heq] at this
      rcases hdP with h1 | h1
      · rw [this.1] at h1
        exact Bool.noConfusion h1
      · exact this.2 h1
    rcases hdP with hemp | hmatch
    · rw [probeFind_path_empty slots k d idx f hidx (Nat.lt_of_lt_of_le hdlt hf)
          hpass hemp,
        probeFind_path_empty slots k d idx cap hidx hdlt hpass hemp]
    · rw [probeFind_path_found slots k d idx f hidx (Nat.lt_of_lt_of_le hdlt hf)
          hpass hmatch,
        probeFind_path_found slots k d idx cap hidx hdlt hpass hmatch]
  · push_neg at hex
    have hno : ∀ i, i < cap → (slotAt slots i).activeKey ≠ some k := by
      intro i hi
      obtain ⟨e, _, heq⟩ := exists_offset cap idx i hidx hi
      have := hex e
      rw [heq] at this
      exact this.2
    rw [probeFind_none_of_no_match slots k hno f idx,
      probeFind_none_of_no_match slots k hno cap idx]

theorem probeInsert_fuel_stable (slots : List (Entry K V)) (k : K) (idx : Nat)
    (hidx : idx < slots.length) (f : Nat) (hf : slots.length ≤ f) :
    probeInsert slots k idx f = probeInsert slots k idx slots.length := by
  set cap := slots.length with hcapdef
  by_cases hex : ∃ e, (slotAt slots ((idx + e) % cap)).keyOf = none ∨
      (slotAt slots ((idx + e) % cap)).keyOf = some k
  · set d := Nat.find hex with hddef
    have hdP := Nat.find_spec hex
    have hpass : ∀ e, e < d →
        ∃ k', (slotAt slots ((idx + e) % cap)).keyOf = some k' ∧ k' ≠ k := by
      intro e he
      have hne := Nat.find_min hex he
      push_neg at hne
      cases hk' : (slotAt slots ((idx + e) % cap)).keyOf with
      | none => exact absurd hk' hne.1
      | some k' =>
        refine ⟨k', rfl, fun heq => ?_⟩
        rw [heq] at hk'
        exact hne.2 hk'
    have hdlt : d < cap := by
      by_contra hge
      push_neg at hge
      obtain ⟨e, helt, heq⟩ :=
        exists_offset cap idx ((idx + d) % cap) hidx
          (Nat.mod_lt _ (Nat.lt_of_le_of_lt (Nat.zero_le idx) hidx))
      obtain ⟨k', hk', hk'ne⟩ := hpass e (Nat.lt_of_lt_of_le helt hge)
      rw [heq] at hk'
      rcases hdP with h1 | h1
      · rw [hk'] at h1
        exact Option.noConfusion h1
      · rw [hk'] at h1
        exact hk'ne (Option.some_injective _ h1)
    rw [probeInsert_path slots k d idx f hidx (Nat.lt_of_lt_of_le hdlt hf)
        hpass hdP,
      probeInsert_path slots k d idx cap hidx hdlt hpass hdP]
  · push_neg at hex
    have hall : ∀ i, i < cap →
        ∃ k', (slotAt slots i).keyOf = some k' ∧ k' ≠ k := by
      intro i hi
      obtain ⟨e, _, heq⟩ := exists_offset cap idx i hidx hi
      have h1 := hex e
      rw [heq] at h1
      cases hk' : (slotAt slots i).keyOf with
      | none => exact absurd hk' h1.1
      | some k' =>
        refine ⟨k', rfl, fun heqk => ?_⟩
        rw [heqk] at hk'
        exact h1.2 hk'
    rw [probeInsert_none_of_all_mismatch slots k hall f idx,
      probeInsert_none_of_all_mismatch slots k hall cap idx]

/-- C10: every probe loop is settled within `capacity` slot examinations —
running the probe with any fuel of at least `capacity` gives the same result
as running it with exactly `capacity` (the fuel at which the C++ wrap-around
check fires), for the loops of `insert` (probeInsert) and of
`retrieve`/`remove` (probeFind). -/
theorem probes_settle_within_capacity (h : K → Nat) (t : HashTable K V) (k : K)
    (f : Nat) (hcap : 0 < t.slots.length) (hf : t.slots.length ≤ f) :
    probeInsert t.slots k (hashFunction h t.slots.length k) f =
      probeInsert t.slots k (hashFunction h t.slots.length k) t.slots.length ∧
    probeFind t.slots k (hashFunction h t.slots.length k) f =
      probeFind t.slots k (hashFunction h t.slots.length k) t.slots.length :=
  ⟨probeInsert_fuel_stable t.slots k _ (Nat.mod_lt _ hcap) f hf,
    probeFind_fuel_stable t.slots k _ (Nat.mod_lt _ hcap) f hf⟩

theorem probes_settle_within_capacity_witness :
    probeInsert (mkTable Nat Nat 2).slots 7
        (hashFunction id (mkTable Nat Nat 2).slots.length 7) 5 =
      probeInsert (mkTable Nat Nat 2).slots 7
        (hashFunction id (mkTable Nat Nat 2).slots.length 7)
        (mkTable Nat Nat 2).slots.length ∧
    probeFind (mkTable Nat Nat 2).slots 7
        (hashFunction id (mkTable Nat Nat 2).slots.length 7) 5 =
      probeFind (mkTable Nat Nat 2).slots 7
        (hashFunction id (mkTable Nat Nat 2).slots.length 7)
        (mkTable Nat Nat 2).slots.length :=
  probes_settle_within_capacity id (mkTable Nat Nat 2) 7 5 (by decide) (by decide)

end HashTableLP
